import Mathlib

/-!
Formal model of the glassine definition-language front end.

The definitions below are a shallow embedding of the two core source
files of the repository:

* `src/enum.js`   — the closed-enumeration framework (per-type ordinal
  counter, closed flag, bound-name table);
* `src/parser.js` — the `CommandType` registry, the `Command` value
  object with its 32-bit fingerprint, and the cursor-based `Parser.parse`
  scan with its document-level validation.

Text is modelled as `List Char`; the scan's mutable cursor becomes the
remaining suffix of the character list, and the 1-based line counter is
threaded explicitly.  JavaScript's signed 32-bit `|0` wrap is modelled
by `toInt32` on `Int`.  Thrown `Error`s become an `Except` over an
inductive error type with one constructor per semantically distinct
throw site (§7 of the specification lists the six kinds).
-/

namespace Glassine

/-- Decidable equality of `Except` results, so that concrete runs of the
model can be checked by `decide`. -/
instance exceptDecEq {ε α : Type} [DecidableEq ε] [DecidableEq α] :
    DecidableEq (Except ε α) := fun a b =>
  match a, b with
  | .error e, .error f =>
    if h : e = f then .isTrue (h ▸ rfl)
    else .isFalse fun he => h (Except.error.inj he)
  | .ok x, .ok y =>
    if h : x = y then .isTrue (h ▸ rfl)
    else .isFalse fun he => h (Except.ok.inj he)
  | .error _, .ok _ => .isFalse fun h => Except.noConfusion h
  | .ok _, .error _ => .isFalse fun h => Except.noConfusion h

/-! ## Closed-enumeration framework (`src/enum.js`) -/

/-- The distinct error kinds of `src/enum.js`: "cannot be modified anymore"
(constructor guard, lines 30-32) and "You cannot use unclosed enum"
(query guards, lines 43-45 and 54-56). -/
inductive EnumError where
  | cannotModify
  | unclosedEnum
deriving DecidableEq

/-- The per-type mutable state of `src/enum.js`: the `values` counter map
entry, the `closed` map entry, and the static-property bindings that
`Object.keys`-based introspection (`values()`, `name()`) sees.  A binding
is a property name together with the bound variant's ordinal. -/
structure EnumTypeState where
  counter : Nat
  closed : Bool
  bound : List (String × Nat)
deriving DecidableEq

/-- An enumeration variant: it stores the ordinal assigned at
construction time (`this.#ord`, `src/enum.js` line 34). -/
structure EnumVariant where
  ordVal : Nat
deriving DecidableEq

/-- `Enum` constructor (`src/enum.js` lines 29-36): fails when the type is
already closed, otherwise assigns the next sequential ordinal. -/
def Enum.registerVariant (st : EnumTypeState) :
    Except EnumError (EnumVariant × EnumTypeState) :=
  if st.closed then .error .cannotModify
  else .ok (⟨st.counter⟩, { st with counter := st.counter + 1 })

/-- `Enum.close` (`src/enum.js` lines 98-101). -/
def Enum.close (st : EnumTypeState) : EnumTypeState :=
  { st with closed := true }

/-- `Enum#ord` (`src/enum.js` lines 42-47): unclosed-type guard, then the
stored ordinal. -/
def Enum.ord (st : EnumTypeState) (v : EnumVariant) : Except EnumError Nat :=
  if st.closed then .ok v.ordVal else .error .unclosedEnum

/-- `Enum#name` (`src/enum.js` lines 53-62): unclosed-type guard, then the
first bound property whose variant has this variant's ordinal (`find`
over `Object.keys`).  `none` models JavaScript's `undefined`. -/
def Enum.name (st : EnumTypeState) (v : EnumVariant) :
    Except EnumError (Option String) :=
  if st.closed then
    .ok ((st.bound.find? (fun p => p.2 == v.ordVal)).map (fun p => p.1))
  else .error .unclosedEnum

/-- `Enum.values` (`src/enum.js` lines 80-84): the bound variants in
binding order. -/
def Enum.valuesOf (st : EnumTypeState) : List EnumVariant :=
  st.bound.map (fun p => ⟨p.2⟩)

/-- The `find` of `Enum.fromName` (`src/enum.js` line 92): evaluates
`item.name()` (which may fail on an unclosed type) against the sought
name, left to right. -/
def Enum.fromNameAux (st : EnumTypeState) (nm : String) :
    List EnumVariant → Except EnumError (Option EnumVariant)
  | [] => .ok none
  | v :: rest => do
    let n ← Enum.name st v
    if n = some nm then .ok (some v) else Enum.fromNameAux st nm rest

/-- `Enum.fromName` (`src/enum.js` lines 91-93). -/
def Enum.fromName (st : EnumTypeState) (nm : String) :
    Except EnumError (Option EnumVariant) :=
  Enum.fromNameAux st nm (Enum.valuesOf st)

/-! ## Command-type registry (`src/parser.js` lines 6-68) -/

/-- The five `CommandType` variants, in the registration order of
`src/parser.js` lines 42-66. -/
inductive CommandType where
  | ORIGIN
  | RUN
  | COPY
  | WORKDIR
  | ENTRYPOINT
deriving DecidableEq

/-- The ordinal each variant receives from the enumeration framework:
construction order at `src/parser.js` lines 42-66 is ORIGIN, RUN, COPY,
WORKDIR, ENTRYPOINT. -/
def CommandType.ordOf : CommandType → Nat
  | .ORIGIN => 0
  | .RUN => 1
  | .COPY => 2
  | .WORKDIR => 3
  | .ENTRYPOINT => 4

/-- The alias-token lists from `src/parser.js` lines 42-66. -/
def CommandType.tokensOf : CommandType → List String
  | .ORIGIN => ["FROM"]
  | .RUN => ["RUN", "EXEC"]
  | .COPY => ["COPY"]
  | .WORKDIR => ["WORKDIR"]
  | .ENTRYPOINT => ["ENTRYPOINT", "CMD"]

/-- `CommandType.values()`: the static bindings in registration order. -/
def CommandType.valuesList : List CommandType :=
  [.ORIGIN, .RUN, .COPY, .WORKDIR, .ENTRYPOINT]

/-- `CommandType.fromToken` (`src/parser.js` lines 32-34):
`values().find(value => value.tokens().indexOf(token) !== -1)` — the
first variant, in registration order, whose token list contains the
token exactly (case-sensitive string equality). -/
def CommandType.fromToken (token : String) : Option CommandType :=
  CommandType.valuesList.find? (fun v => (CommandType.tokensOf v).contains token)

/-! ## Command value object (`src/parser.js` lines 73-138) -/

/-- JavaScript's `String.prototype.trim` whitespace class (WhiteSpace ∪
LineTerminator): used by `value.trim()` at `src/parser.js` line 96 and by
`args.trim()` at line 259. -/
def isJsWhitespace (c : Char) : Bool :=
  c == ' ' || c == '\t' || c == '\n' || c == '\r' || c == '\x0b' || c == '\x0c' ||
  c == '\u00A0' || c == '\u1680' ||
  (decide ('\u2000' ≤ c) && decide (c ≤ '\u200A')) ||
  c == '\u2028' || c == '\u2029' || c == '\u202F' || c == '\u205F' ||
  c == '\u3000' || c == '\uFEFF'

/-- `String.prototype.trim`: drop leading and trailing whitespace only. -/
def jsTrim (cs : List Char) : List Char :=
  ((cs.dropWhile isJsWhitespace).reverse.dropWhile isJsWhitespace).reverse

/-- JavaScript `x | 0`: wrap an integer to signed 32-bit two's
complement. -/
def toInt32 (n : Int) : Int :=
  (n + 2 ^ 31) % 2 ^ 32 - 2 ^ 31

/-- One loop iteration of the fingerprint computation
(`src/parser.js` lines 99-103): `hash = ((hash << 5) - hash) + chr;
hash |= 0;`.  The `<<` itself coerces its operand to int32, hence the
inner `toInt32`. -/
def hashStep (h : Int) (c : Char) : Int :=
  toInt32 (toInt32 (h * 32) - h + (c.toNat : Int))

/-- The fingerprint of a command (`Command` constructor,
`src/parser.js` lines 94-105): seeded from the kind's ordinal
(`hash = ord; hash = (hash << 5) - hash;`), then folded over the
character codes of the trimmed value. -/
def commandHash (ty : CommandType) (value : List Char) : Int :=
  (jsTrim value).foldl hashStep
    (toInt32 ((CommandType.ordOf ty : Int) * 32) - (CommandType.ordOf ty : Int))

/-- The immutable `Command` value (`src/parser.js` lines 73-138): a kind,
the trimmed value, and the derived fingerprint. -/
structure Command where
  type : CommandType
  value : List Char
  hash : Int
deriving DecidableEq

/-- The `Command` constructor (`src/parser.js` lines 94-105): trims the
incoming value and computes the fingerprint. -/
def Command.make (ty : CommandType) (value : List Char) : Command :=
  { type := ty, value := jsTrim value, hash := commandHash ty value }

/-! ## Definition parser (`src/parser.js` lines 143-296) -/

/-- The six semantically distinct failure kinds of `Parser.parse`
(specification §7).  The three in-scan kinds carry the 1-based line
number interpolated into the thrown message; the three document-level
kinds carry none. -/
inductive ParseError where
  | missingArgument (line : Nat)
  | unterminatedEscape (line : Nat)
  | unknownCommand (line : Nat)
  | missingOrigin
  | multipleOrigin
  | multipleEntrypoint
deriving DecidableEq

/-- The token-accumulation loop (`src/parser.js` lines 198-216): read
until an ASCII space; a `#` discards the rest of the physical line and
marks the iteration as a comment; a newline while accumulating throws
(line 210, a `MissingArgument`).  The returned suffix is where the
cursor stops: at the space, past the comment, or at end of input. -/
def readToken (line : Nat) (cmd : List Char) :
    List Char → Except ParseError (List Char × Bool × List Char)
  | [] => .ok (cmd, false, [])
  | c :: rest =>
    if c = ' ' then .ok (cmd, false, c :: rest)
    else if c = '#' then
      .ok (cmd, true, (c :: rest).dropWhile (fun x => ¬ x = '\n'))
    else if c = '\n' then .error (.missingArgument line)
    else readToken line (cmd ++ [c]) rest

/-- The argument-accumulation loop (`src/parser.js` lines 229-256): read
until an unescaped newline.  A `\` with nothing after it in the entire
input throws (line 236); otherwise the next character is appended
verbatim, bumping the line counter if it is a newline.  An unescaped `#`
discards the rest of the physical line and ends the argument. -/
def readArgs (line : Nat) (args : List Char) :
    List Char → Except ParseError (List Char × Nat × List Char)
  | [] => .ok (args, line, [])
  | c :: rest =>
    if c = '\n' then .ok (args, line, c :: rest)
    else if c = '\\' then
      match rest with
      | [] => .error (.unterminatedEscape line)
      | d :: rest2 =>
        readArgs (if d = '\n' then line + 1 else line) (args ++ [d]) rest2
    else if c = '#' then
      .ok (args, line, (c :: rest).dropWhile (fun x => ¬ x = '\n'))
    else readArgs line (args ++ [c]) rest

/-- The tail of a scan iteration (`src/parser.js` lines 258-275): trim the
argument; a non-empty token with an empty trimmed argument throws (line
262); a non-empty token with a non-empty argument is resolved (line 269),
an unresolvable token throws (line 271), and otherwise a `Command` is
produced.  An empty token (comment-only line) produces nothing. -/
def finishIter (line : Nat) (cmd args rest : List Char) :
    Except ParseError (Option Command × Nat × List Char) :=
  let targs := jsTrim args
  if cmd ≠ [] ∧ targs = [] then .error (.missingArgument line)
  else if cmd ≠ [] ∧ targs ≠ [] then
    match CommandType.fromToken (String.mk cmd) with
    | none => .error (.unknownCommand line)
    | some ty => .ok (some (Command.make ty targs), line, rest)
  else .ok (none, line, rest)

/-- The post-token part of a scan iteration (`src/parser.js` lines
219-256 followed by 258-275): skip spaces after the token; end of input
or an immediate newline throws (line 226); otherwise accumulate the
argument and finish the iteration. -/
def afterToken (line : Nat) (cmd cs2 : List Char) :
    Except ParseError (Option Command × Nat × List Char) :=
  match cs2.dropWhile (fun x => x = ' ') with
  | [] => .error (.missingArgument line)
  | x :: rest3 =>
    if x = '\n' then .error (.missingArgument line)
    else
      match readArgs line [] (x :: rest3) with
      | .error e => .error e
      | .ok (args, line2, cs4) => finishIter line2 cmd args cs4

/-- One iteration of the outer `while` loop of `Parser.parse`
(`src/parser.js` lines 165-275): skip leading spaces, consume a blank
line, or read a token and its argument, yielding an optional `Command`,
the updated line counter, and the remaining input. -/
def parseStep (line : Nat) (cs : List Char) :
    Except ParseError (Option Command × Nat × List Char) :=
  match cs.dropWhile (fun c => c = ' ') with
  | [] => .ok (none, line, [])
  | c :: rest =>
    if c = '\n' then .ok (none, line + 1, rest)
    else
      match readToken line [] (c :: rest) with
      | .error e => .error e
      | .ok (cmd, skip, cs2) =>
        if skip then finishIter line cmd [] cs2
        else afterToken line cmd cs2

/-- The outer `while (cursor < text.length)` loop of `Parser.parse`.
Every iteration on a non-empty remainder consumes at least one character
(`parseStep_length` below), so the fuel `text.length + 1` supplied by
`scan` is never exhausted. -/
def scanAux : Nat → Nat → List Command → List Char → Except ParseError (List Command)
  | 0, _, acc, _ => .ok acc
  | fuel + 1, line, acc, cs =>
    if cs.isEmpty then .ok acc
    else
      match parseStep line cs with
      | .error e => .error e
      | .ok (none, line2, rest) => scanAux fuel line2 acc rest
      | .ok (some cmd, line2, rest) => scanAux fuel line2 (acc ++ [cmd]) rest

/-- The scan phase of `Parser.parse`: the whole loop of lines 165-276,
starting at line 1 with an empty result. -/
def scan (cs : List Char) : Except ParseError (List Command) :=
  scanAux (cs.length + 1) 1 [] cs

/-- The document-level validation of `Parser.parse` (`src/parser.js`
lines 277-291): on a non-empty result, the first command must be an
ORIGIN, at most one ORIGIN may occur, and at most one ENTRYPOINT may
occur. -/
def validate (result : List Command) : Except ParseError (List Command) :=
  match result with
  | [] => .ok []
  | first :: _ =>
    if first.type ≠ CommandType.ORIGIN then .error .missingOrigin
    else if 1 < (result.filter (fun c => c.type = CommandType.ORIGIN)).length then
      .error .multipleOrigin
    else if 1 < (result.filter (fun c => c.type = CommandType.ENTRYPOINT)).length then
      .error .multipleEntrypoint
    else .ok result

/-- `Parser.parse` (`src/parser.js` lines 149-292): scan, then validate. -/
def parse (s : String) : Except ParseError (List Command) :=
  match scan s.toList with
  | .error e => .error e
  | .ok result => validate result

/-! ## Statement-side definitions -/

/-- Modelled from the spec: the fingerprint algorithm of §4.3, stated over
an ordinal and an already-trimmed value — `h := kind.ordinal();
h := (h << 5) - h; for each character c: h := ((h << 5) - h) + code(c),
truncated/wrapped to a signed 32-bit integer`.  This is the reference
the implementation's `commandHash` is compared against. -/
def specFingerprint (ordinal : Nat) (value : List Char) : Int :=
  value.foldl (fun h c => toInt32 (h * 32 - h + (c.toNat : Int)))
    ((ordinal : Int) * 32 - (ordinal : Int))

/-- The physical lines of a document: the `'\n'`-separated segments, with
a final (possibly empty) segment even for the empty document. -/
def splitLines : List Char → List (List Char)
  | [] => [[]]
  | c :: rest =>
    if c = '\n' then [] :: splitLines rest
    else
      match splitLines rest with
      | [] => [[c]]
      | l :: ls => (c :: l) :: ls

/-- A blank or comment-only physical line: after leading ASCII spaces it
is either empty or starts with `#`. -/
def blankOrComment (l : List Char) : Bool :=
  match l.dropWhile (fun c => c = ' ') with
  | [] => true
  | c :: _ => c = '#'

/-- A document consisting solely of blank and comment-only lines. -/
def commentOnlyDoc (cs : List Char) : Bool :=
  (splitLines cs).all blankOrComment

/-! ## Arithmetic lemmas for the fingerprint -/

theorem toInt32_emod (a : Int) : toInt32 a % 2 ^ 32 = a % 2 ^ 32 := by
  unfold toInt32
  omega

theorem toInt32_congr {a b : Int} (h : a % 2 ^ 32 = b % 2 ^ 32) :
    toInt32 a = toInt32 b := by
  unfold toInt32
  omega

theorem toInt32_range (a : Int) : -(2 ^ 31) ≤ toInt32 a ∧ toInt32 a < 2 ^ 31 := by
  unfold toInt32
  constructor
  · have := Int.emod_nonneg (a + 2 ^ 31) (by norm_num : (2 ^ 32 : Int) ≠ 0)
    omega
  · have := Int.emod_lt_of_pos (a + 2 ^ 31) (by norm_num : (0 : Int) < 2 ^ 32)
    omega

theorem hashStep_eq_spec (h : Int) (c : Char) :
    hashStep h c = toInt32 (h * 32 - h + (c.toNat : Int)) := by
  unfold hashStep
  apply toInt32_congr
  have h32 := toInt32_emod (h * 32)
  omega

theorem foldl_hashStep_eq_spec (l : List Char) (h : Int) :
    l.foldl hashStep h =
      l.foldl (fun h c => toInt32 (h * 32 - h + (c.toNat : Int))) h := by
  have : hashStep = fun h c => toInt32 (h * 32 - h + (c.toNat : Int)) :=
    funext fun h => funext fun c => hashStep_eq_spec h c
  rw [this]

theorem foldl_hashStep_range (l : List Char) (h : Int)
    (hlo : -(2 ^ 31) ≤ h) (hhi : h < 2 ^ 31) :
    -(2 ^ 31) ≤ l.foldl hashStep h ∧ l.foldl hashStep h < 2 ^ 31 := by
  induction l generalizing h with
  | nil => exact ⟨hlo, hhi⟩
  | cons c l ih =>
    have hr := toInt32_range (toInt32 (h * 32) - h + (c.toNat : Int))
    exact ih (hashStep h c) hr.1 hr.2

theorem commandHash_seed (ty : CommandType) :
    toInt32 ((CommandType.ordOf ty : Int) * 32) - (CommandType.ordOf ty : Int) =
      (CommandType.ordOf ty : Int) * 32 - (CommandType.ordOf ty : Int) := by
  cases ty <;> decide

theorem commandHash_seed_range (ty : CommandType) :
    -(2 ^ 31) ≤ toInt32 ((CommandType.ordOf ty : Int) * 32) - (CommandType.ordOf ty : Int) ∧
      toInt32 ((CommandType.ordOf ty : Int) * 32) - (CommandType.ordOf ty : Int) < 2 ^ 31 := by
  cases ty <;> exact ⟨by decide, by decide⟩

/-- C2: the fingerprint stored in a constructed `Command` is exactly the
§4.3 algorithm applied to the kind's ordinal and the trimmed value —
a pure function of that pair, with the ordinals ORIGIN=0, RUN=1, COPY=2,
WORKDIR=3, ENTRYPOINT=4, and every intermediate result wrapped to a
signed 32-bit two's-complement integer, so the final fingerprint always
lies in `[-2^31, 2^31)`. -/
theorem c2_fingerprint :
    (∀ (ty : CommandType) (v : List Char),
        (Command.make ty v).hash = commandHash ty v) ∧
    (∀ (ty : CommandType) (v : List Char),
        commandHash ty v = specFingerprint (CommandType.ordOf ty) (jsTrim v)) ∧
    CommandType.ordOf .ORIGIN = 0 ∧ CommandType.ordOf .RUN = 1 ∧
    CommandType.ordOf .COPY = 2 ∧ CommandType.ordOf .WORKDIR = 3 ∧
    CommandType.ordOf .ENTRYPOINT = 4 ∧
    (∀ (ty1 ty2 : CommandType) (v1 v2 : List Char),
        CommandType.ordOf ty1 = CommandType.ordOf ty2 → jsTrim v1 = jsTrim v2 →
        commandHash ty1 v1 = commandHash ty2 v2) ∧
    (∀ (ty : CommandType) (v : List Char),
        -(2 ^ 31) ≤ commandHash ty v ∧ commandHash ty v < 2 ^ 31) := by
  have refines : ∀ (ty : CommandType) (v : List Char),
      commandHash ty v = specFingerprint (CommandType.ordOf ty) (jsTrim v) := by
    intro ty v
    unfold commandHash specFingerprint
    rw [foldl_hashStep_eq_spec, commandHash_seed]
  refine ⟨fun ty v => rfl, refines, rfl, rfl, rfl, rfl, rfl, ?_, ?_⟩
  · intro ty1 ty2 v1 v2 hord htrim
    rw [refines, refines, hord, htrim]
  · intro ty v
    unfold commandHash
    exact foldl_hashStep_range _ _ (commandHash_seed_range ty).1 (commandHash_seed_range ty).2

/-- Witness for C2: the fingerprint depends only on the ordinal and the
trimmed value — a padded and an unpadded value give the same hash. -/
theorem c2_fingerprint_witness :
    commandHash CommandType.ORIGIN ("  ubuntu  ".toList) =
      commandHash CommandType.ORIGIN ("ubuntu".toList) :=
  c2_fingerprint.2.2.2.2.2.2.2.1 _ _ _ _ rfl (by decide)

/-! ## Structural lemmas about the scan -/

theorem dropWhile_all_append {α : Type} (p : α → Bool) (sp rest : List α)
    (h : ∀ c ∈ sp, p c) : (sp ++ rest).dropWhile p = rest.dropWhile p := by
  induction sp with
  | nil => rfl
  | cons c sp ih =>
    rw [List.cons_append, List.dropWhile_cons_of_pos (h c (by simp))]
    exact ih fun x hx => h x (by simp [hx])

theorem dropWhile_length_le {α : Type} (p : α → Bool) (l : List α) :
    (l.dropWhile p).length ≤ l.length := by
  induction l with
  | nil => simp
  | cons c l ih =>
    by_cases h : p c
    · rw [List.dropWhile_cons_of_pos h]
      exact Nat.le_succ_of_le ih
    · rw [List.dropWhile_cons_of_neg h]

/-- The token loop passes over characters that are not a space, a `#`,
or a newline, accumulating them. -/
theorem readToken_append (line : Nat) (tok : List Char) :
    ∀ (acc tail : List Char),
      (∀ c ∈ tok, ¬ c = ' ' ∧ ¬ c = '#' ∧ ¬ c = '\n') →
      readToken line acc (tok ++ tail) = readToken line (acc ++ tok) tail := by
  induction tok with
  | nil => intro acc tail _; simp
  | cons c tok ih =>
    intro acc tail h
    obtain ⟨h1, h2, h3⟩ := h c (by simp)
    rw [List.cons_append, readToken]
    simp only [if_neg h1, if_neg h2, if_neg h3]
    rw [ih (acc ++ [c]) tail fun x hx => h x (by simp [hx])]
    simp

/-- A scan iteration whose input starts with a clean non-empty token
reduces to the token loop on the remainder. -/
theorem parseStep_token (line : Nat) (tok tail : List Char)
    (hne : tok ≠ []) (hclean : ∀ c ∈ tok, ¬ c = ' ' ∧ ¬ c = '#' ∧ ¬ c = '\n') :
    parseStep line (tok ++ tail) =
      match readToken line tok tail with
      | .error e => .error e
      | .ok (cmd, skip, cs2) =>
        if skip then finishIter line cmd [] cs2 else afterToken line cmd cs2 := by
  obtain ⟨t0, tok', rfl⟩ := List.exists_cons_of_ne_nil hne
  obtain ⟨h1, h2, h3⟩ := hclean t0 (by simp)
  rw [parseStep, List.cons_append,
    List.dropWhile_cons_of_neg (by simpa using h1)]
  simp only [if_neg h3]
  rw [show t0 :: (tok' ++ tail) = (t0 :: tok') ++ tail from rfl,
    readToken_append line (t0 :: tok') [] tail hclean]
  rfl

/-- Token followed immediately by a newline: the token loop throws the
`MissingArgument` of `src/parser.js` line 210. -/
theorem parseStep_token_newline (line : Nat) (tok rest : List Char)
    (hne : tok ≠ []) (hclean : ∀ c ∈ tok, ¬ c = ' ' ∧ ¬ c = '#' ∧ ¬ c = '\n') :
    parseStep line (tok ++ '\n' :: rest) = .error (.missingArgument line) := by
  rw [parseStep_token line tok ('\n' :: rest) hne hclean]
  rw [readToken]
  simp

/-- Token at end of input: the argument check of `src/parser.js` line 226
throws `MissingArgument`. -/
theorem parseStep_token_eof (line : Nat) (tok : List Char)
    (hne : tok ≠ []) (hclean : ∀ c ∈ tok, ¬ c = ' ' ∧ ¬ c = '#' ∧ ¬ c = '\n') :
    parseStep line tok = .error (.missingArgument line) := by
  rw [show tok = tok ++ [] by simp, parseStep_token line tok [] hne hclean]
  rw [readToken]
  rfl

/-- Token followed by at least one space: the iteration reaches the
argument phase on the text after the token. -/
theorem parseStep_token_space (line : Nat) (tok sp rest : List Char)
    (hne : tok ≠ []) (hclean : ∀ c ∈ tok, ¬ c = ' ' ∧ ¬ c = '#' ∧ ¬ c = '\n')
    (hspne : sp ≠ []) (hsp : ∀ c ∈ sp, c = ' ') :
    parseStep line (tok ++ sp ++ rest) = afterToken line tok (sp ++ rest) := by
  obtain ⟨s0, sp', rfl⟩ := List.exists_cons_of_ne_nil hspne
  have hs0 : s0 = ' ' := hsp s0 (by simp)
  subst hs0
  rw [List.append_assoc, parseStep_token line tok ((' ' :: sp') ++ rest) hne hclean]
  rw [List.cons_append, readToken]
  simp

/-- Spaces between token and argument are consumed by the skip of
`src/parser.js` lines 220-222. -/
theorem afterToken_dropSpaces (line : Nat) (cmd sp rest : List Char)
    (hsp : ∀ c ∈ sp, c = ' ') :
    afterToken line cmd (sp ++ rest) = afterToken line cmd rest := by
  rw [afterToken, afterToken,
    dropWhile_all_append _ sp rest (fun c hc => by simp [hsp c hc])]

theorem afterToken_eof (line : Nat) (cmd : List Char) :
    afterToken line cmd [] = .error (.missingArgument line) := rfl

theorem afterToken_newline (line : Nat) (cmd rest : List Char) :
    afterToken line cmd ('\n' :: rest) = .error (.missingArgument line) := by
  rw [afterToken, List.dropWhile_cons_of_neg (by decide)]
  rfl

/-- When a non-space, non-newline character follows, the argument loop of
`src/parser.js` lines 229-256 runs. -/
theorem afterToken_go (line : Nat) (cmd rest : List Char)
    (hne : rest ≠ [])
    (hhead : ∀ c, rest.head? = some c → ¬ c = ' ' ∧ ¬ c = '\n') :
    afterToken line cmd rest =
      match readArgs line [] rest with
      | .error e => .error e
      | .ok (args, line2, cs4) => finishIter line2 cmd args cs4 := by
  obtain ⟨r0, rest', rfl⟩ := List.exists_cons_of_ne_nil hne
  obtain ⟨hr1, hr2⟩ := hhead r0 rfl
  rw [afterToken, List.dropWhile_cons_of_neg (by simpa using hr1)]
  simp only [if_neg hr2]

theorem finishIter_empty_args (line : Nat) (cmd args rest : List Char)
    (hcmd : cmd ≠ []) (hargs : jsTrim args = []) :
    finishIter line cmd args rest = .error (.missingArgument line) := by
  rw [finishIter]
  simp [hcmd, hargs]

theorem finishIter_unknown (line : Nat) (cmd args rest : List Char)
    (hcmd : cmd ≠ []) (hargs : ¬ jsTrim args = [])
    (htok : CommandType.fromToken (String.mk cmd) = none) :
    finishIter line cmd args rest = .error (.unknownCommand line) := by
  rw [finishIter]
  simp [hcmd, hargs, htok]

/-! ## The claims about `MissingArgument` -/

/-- C5: whenever a scan iteration reads a non-empty token but the
accumulated argument trims to the empty string, the parse fails with
`MissingArgument`: (a) a token immediately followed by a newline, (b) a
token followed only by spaces before end of input, (c) a token followed
only by spaces before a newline, (d) an accumulated argument that trims
to empty (entirely whitespace), reported at the line the argument ended
on; and in particular `"RUN\n"` fails with `MissingArgument` on line 1. -/
theorem c5_missing_argument :
    (∀ (line : Nat) (tok rest : List Char), tok ≠ [] →
        (∀ c ∈ tok, ¬ c = ' ' ∧ ¬ c = '#' ∧ ¬ c = '\n') →
        parseStep line (tok ++ '\n' :: rest) = .error (.missingArgument line)) ∧
    (∀ (line : Nat) (tok sp : List Char), tok ≠ [] →
        (∀ c ∈ tok, ¬ c = ' ' ∧ ¬ c = '#' ∧ ¬ c = '\n') →
        (∀ c ∈ sp, c = ' ') →
        parseStep line (tok ++ sp) = .error (.missingArgument line)) ∧
    (∀ (line : Nat) (tok sp rest : List Char), tok ≠ [] →
        (∀ c ∈ tok, ¬ c = ' ' ∧ ¬ c = '#' ∧ ¬ c = '\n') →
        sp ≠ [] → (∀ c ∈ sp, c = ' ') →
        parseStep line (tok ++ sp ++ '\n' :: rest) = .error (.missingArgument line)) ∧
    (∀ (line line2 : Nat) (tok sp rest args cs4 : List Char), tok ≠ [] →
        (∀ c ∈ tok, ¬ c = ' ' ∧ ¬ c = '#' ∧ ¬ c = '\n') →
        sp ≠ [] → (∀ c ∈ sp, c = ' ') →
        rest ≠ [] → (∀ c, rest.head? = some c → ¬ c = ' ' ∧ ¬ c = '\n') →
        readArgs line [] rest = .ok (args, line2, cs4) →
        jsTrim args = [] →
        parseStep line (tok ++ sp ++ rest) = .error (.missingArgument line2)) ∧
    parse "RUN\n" = .error (.missingArgument 1) := by
  refine ⟨parseStep_token_newline, ?_, ?_, ?_, by decide⟩
  · intro line tok sp hne hclean hsp
    rcases sp with _ | ⟨s0, sp'⟩
    · rw [List.append_nil]
      exact parseStep_token_eof line tok hne hclean
    · rw [show tok ++ s0 :: sp' = tok ++ (s0 :: sp') ++ [] by simp,
        parseStep_token_space line tok (s0 :: sp') [] hne hclean (by simp) hsp,
        List.append_nil,
        show (s0 : Char) :: sp' = (s0 :: sp') ++ [] by simp,
        afterToken_dropSpaces line tok (s0 :: sp') [] hsp]
      exact afterToken_eof line tok
  · intro line tok sp rest hne hclean hspne hsp
    rw [parseStep_token_space line tok sp ('\n' :: rest) hne hclean hspne hsp,
      afterToken_dropSpaces line tok sp ('\n' :: rest) hsp]
    exact afterToken_newline line tok rest
  · intro line line2 tok sp rest args cs4 hne hclean hspne hsp hrne hrhead hargs htrim
    rw [parseStep_token_space line tok sp rest hne hclean hspne hsp,
      afterToken_dropSpaces line tok sp rest hsp,
      afterToken_go line tok rest hrne hrhead, hargs]
    exact finishIter_empty_args line2 tok args cs4 hne htrim

/-- Witness for C5: scenario (a) at the concrete input of the claim —
the token `RUN` immediately followed by a newline. -/
theorem c5_missing_argument_witness :
    parseStep 1 ("RUN".toList ++ '\n' :: []) = .error (.missingArgument 1) :=
  c5_missing_argument.1 1 ("RUN".toList) [] (by decide) (by decide)

/-- C10: a tab is not a separator — it is accumulated into the token like
any other non-space character, so a line whose token is followed by a tab
instead of a space never yields a `Command` and fails with
`MissingArgument` at the line's newline; in particular
`"FROM\tubuntu\n"`. -/
theorem c10_tab_not_separator :
    (∀ (line : Nat) (tok rest : List Char), '\t' ∈ tok →
        (∀ c ∈ tok, ¬ c = ' ' ∧ ¬ c = '#' ∧ ¬ c = '\n') →
        parseStep line (tok ++ '\n' :: rest) = .error (.missingArgument line)) ∧
    parse "FROM\tubuntu\n" = .error (.missingArgument 1) := by
  refine ⟨?_, by decide⟩
  intro line tok rest htab hclean
  exact parseStep_token_newline line tok rest (List.ne_nil_of_mem htab) hclean

/-- Witness for C10: the tab-separated `FROM` line, stepped directly. -/
theorem c10_tab_not_separator_witness :
    parseStep 1 ("FROM\tubuntu".toList ++ '\n' :: []) = .error (.missingArgument 1) :=
  c10_tab_not_separator.1 1 ("FROM\tubuntu".toList) [] (by decide) (by decide)

/-! ## The claims about the escape character -/

/-- C9 as stated is false: the input `"\\"` — a single backslash, which is
the last character of the input and is not itself escaped — fails with
`MissingArgument`, not `UnterminatedEscape`, because the backslash is
accumulated as a token (the token loop of `src/parser.js` lines 198-216
gives `\` no special treatment) and the scan then reaches the
no-argument check of line 226 before the escape check of line 235 is
ever consulted. -/
theorem c9_counterexample :
    parse "\\" = .error (.missingArgument 1) ∧
    ParseError.missingArgument 1 ≠ ParseError.unterminatedEscape 1 := by
  decide

/-- C9 amended: a trailing unescaped backslash causes `UnterminatedEscape`
exactly when it is reached by the argument-accumulation loop — for any
line number and any already-accumulated argument, if the rest of the
input is a run of ordinary characters (no `\`, `#` or newline) ending in
a final backslash, the argument loop fails with `UnterminatedEscape` at
the current line; e.g. `"FROM a\\"` fails with `UnterminatedEscape` on
line 1. -/
theorem c9_trailing_escape :
    (∀ (line : Nat) (args pre : List Char),
        (∀ c ∈ pre, ¬ c = '\\' ∧ ¬ c = '#' ∧ ¬ c = '\n') →
        readArgs line args (pre ++ ['\\']) = .error (.unterminatedEscape line)) ∧
    parse "FROM a\\" = .error (.unterminatedEscape 1) := by
  refine ⟨?_, by decide⟩
  intro line args pre h
  induction pre generalizing args with
  | nil => rfl
  | cons c pre ih =>
    obtain ⟨h1, h2, h3⟩ := h c (by simp)
    rw [List.cons_append, readArgs.eq_def]
    simp only [if_neg h3, if_neg h1, if_neg h2]
    exact ih (args ++ [c]) fun x hx => h x (by simp [hx])

/-- Witness for C9 (amended): the argument `a` followed by a trailing
backslash at end of input. -/
theorem c9_trailing_escape_witness :
    readArgs 1 [] ("a".toList ++ ['\\']) = .error (.unterminatedEscape 1) :=
  c9_trailing_escape.1 1 [] ("a".toList) (by decide)

/-! ## The claim about escaped newlines (C1) -/

/-- C1 as stated is false: parsing `"FROM a\nCOPY x \\\ny\n"` does
succeed, but the COPY command's value is `"x \ny"`, not `"x y"` — the
escape appends the escaped newline itself verbatim
(`src/parser.js` line 253) and `trim` only strips the ends, so the
two physical lines are joined with the newline preserved. -/
theorem c1_counterexample :
    parse "FROM a\nCOPY x \\\ny\n" =
      .ok [Command.make CommandType.ORIGIN ("a".toList),
           Command.make CommandType.COPY ("x \ny".toList)] ∧
    ¬ (Command.make CommandType.COPY ("x \ny".toList)).value = "x y".toList := by
  decide

/-- C1 amended: parsing `"FROM a\nCOPY x \\\ny\n"` succeeds and yields a
COPY command whose value is `"x \ny"` — the escaped newline is appended
verbatim, joining the two physical lines — and during the COPY
iteration, which starts on line 2, the line counter advances by one (to
3) while consuming the escaped continuation. -/
theorem c1_escaped_newline_joins :
    parse "FROM a\nCOPY x \\\ny\n" =
      .ok [Command.make CommandType.ORIGIN ("a".toList),
           Command.make CommandType.COPY ("x \ny".toList)] ∧
    parseStep 2 ("COPY x \\\ny\n".toList) =
      .ok (some (Command.make CommandType.COPY ("x \ny".toList)), 3, ['\n']) := by
  decide

/-! ## The claim about token resolution (C6) -/

/-- The five alias-token sets are pairwise disjoint, so the first match
in registration order is the only match. -/
theorem tokensOf_disjoint (k k' : CommandType) (t : String)
    (h : t ∈ CommandType.tokensOf k) (h' : t ∈ CommandType.tokensOf k') :
    k = k' := by
  cases k <;> cases k' <;>
    simp only [CommandType.tokensOf, List.mem_cons, List.mem_singleton,
      List.not_mem_nil, or_false] at h h' <;>
    first
      | rfl
      | (subst h; exact absurd h' (by decide))
      | (rcases h with h | h <;> subst h <;> exact absurd h' (by decide))

/-- C6: token resolution is exact and case-sensitive: a resolved token
is a character-for-character member of the resolved variant's alias set,
and no variant earlier in registration order (smaller ordinal) also
carries it; a token carried by no variant resolves to nothing, `"from"`
resolves to nothing, and a scan iteration whose token resolves to
nothing (with a non-empty trimmed argument) fails with
`UnknownCommand`; in particular `"foo x\n"`. -/
theorem c6_token_resolution :
    CommandType.fromToken "from" = none ∧
    (∀ (t : String) (k : CommandType), CommandType.fromToken t = some k →
        t ∈ CommandType.tokensOf k ∧
        ∀ k' : CommandType, t ∈ CommandType.tokensOf k' →
          CommandType.ordOf k ≤ CommandType.ordOf k') ∧
    (∀ t : String, (∀ k : CommandType, ¬ t ∈ CommandType.tokensOf k) →
        CommandType.fromToken t = none) ∧
    (∀ (line line2 : Nat) (tok sp rest args cs4 : List Char), tok ≠ [] →
        (∀ c ∈ tok, ¬ c = ' ' ∧ ¬ c = '#' ∧ ¬ c = '\n') →
        sp ≠ [] → (∀ c ∈ sp, c = ' ') →
        rest ≠ [] → (∀ c, rest.head? = some c → ¬ c = ' ' ∧ ¬ c = '\n') →
        readArgs line [] rest = .ok (args, line2, cs4) →
        ¬ jsTrim args = [] →
        CommandType.fromToken (String.mk tok) = none →
        parseStep line (tok ++ sp ++ rest) = .error (.unknownCommand line2)) ∧
    parse "foo x\n" = .error (.unknownCommand 1) := by
  refine ⟨by decide, ?_, ?_, ?_, by decide⟩
  · intro t k h
    have hmem : t ∈ CommandType.tokensOf k := by
      have hp := List.find?_some h
      exact List.elem_iff.mp hp
    refine ⟨hmem, fun k' h' => ?_⟩
    rw [tokensOf_disjoint k k' t hmem h']
  · intro t h
    rw [CommandType.fromToken, List.find?_eq_none]
    intro k _
    simpa [List.elem_iff] using h k
  · intro line line2 tok sp rest args cs4 hne hclean hspne hsp hrne hrhead hargs htrim hunk
    rw [parseStep_token_space line tok sp rest hne hclean hspne hsp,
      afterToken_dropSpaces line tok sp rest hsp,
      afterToken_go line tok rest hrne hrhead, hargs]
    exact finishIter_unknown line2 tok args cs4 hne htrim hunk

/-- Witness for C6: the unknown token `foo` with argument `x`, stepped
through a single scan iteration. -/
theorem c6_token_resolution_witness :
    parseStep 1 ("foo".toList ++ " ".toList ++ "x\n".toList) =
      .error (.unknownCommand 1) :=
  c6_token_resolution.2.2.2.1 1 1 ("foo".toList) (" ".toList) ("x\n".toList)
    ("x".toList) ("\n".toList) (by decide) (by decide) (by decide) (by decide)
    (by decide) (by decide) (by decide) (by decide) (by decide)

/-! ## The document-level claims (C3, C4) -/

/-- C4: whenever the scan produces a non-empty command sequence whose
first command is not an ORIGIN, the parse fails with `MissingOrigin`;
in particular `"RUN x\n"`. -/
theorem c4_missing_origin :
    (∀ (s : String) (first : Command) (rest : List Command),
        scan s.toList = .ok (first :: rest) →
        ¬ first.type = CommandType.ORIGIN →
        parse s = .error .missingOrigin) ∧
    parse "RUN x\n" = .error .missingOrigin := by
  refine ⟨?_, by decide⟩
  intro s first rest hscan hty
  rw [parse, hscan]
  simp [validate, hty]

/-- Witness for C4: the scan of `"RUN x\n"` yields a single RUN command,
so the parse fails with `MissingOrigin`. -/
theorem c4_missing_origin_witness :
    parse "RUN x\n" = .error .missingOrigin :=
  c4_missing_origin.1 "RUN x\n" (Command.make CommandType.RUN ("x".toList)) []
    (by decide) (by decide)

/-- C3: whenever the scan produces a non-empty command sequence whose
first command is an ORIGIN, with at most one ORIGIN but more than one
ENTRYPOINT, the parse fails with `MultipleEntrypoint` — a distinct error
kind from `MultipleOrigin`. -/
theorem c3_multiple_entrypoint :
    (∀ (s : String) (first : Command) (rest : List Command),
        scan s.toList = .ok (first :: rest) →
        first.type = CommandType.ORIGIN →
        ((first :: rest).filter (fun c => c.type = CommandType.ORIGIN)).length ≤ 1 →
        1 < ((first :: rest).filter (fun c => c.type = CommandType.ENTRYPOINT)).length →
        parse s = .error .multipleEntrypoint) ∧
    ParseError.multipleEntrypoint ≠ ParseError.multipleOrigin := by
  refine ⟨?_, by decide⟩
  intro s first rest hscan hty horig hentry
  rw [parse, hscan]
  simp only [validate]
  rw [if_neg (by simp [hty]), if_neg (Nat.not_lt.mpr horig), if_pos hentry]

/-- Witness for C3: one ORIGIN followed by two ENTRYPOINT (`CMD`)
commands. -/
theorem c3_multiple_entrypoint_witness :
    parse "FROM a\nCMD x\nCMD y\n" = .error .multipleEntrypoint :=
  c3_multiple_entrypoint.1 "FROM a\nCMD x\nCMD y\n"
    (Command.make CommandType.ORIGIN ("a".toList))
    [Command.make CommandType.ENTRYPOINT ("x".toList),
     Command.make CommandType.ENTRYPOINT ("y".toList)]
    (by decide) (by decide) (by decide) (by decide)

/-! ## Blank and comment-only documents (C7) -/

theorem splitLines_cons (c : Char) (rest : List Char) :
    splitLines (c :: rest) =
      if c = '\n' then [] :: splitLines rest
      else match splitLines rest with
        | [] => [[c]]
        | l :: ls => (c :: l) :: ls := rfl

theorem splitLines_ne_nil (cs : List Char) : splitLines cs ≠ [] := by
  rcases cs with _ | ⟨c, rest⟩
  · simp [splitLines]
  · rw [splitLines_cons]
    by_cases h : c = '\n'
    · simp [h]
    · rw [if_neg h]
      rcases splitLines rest with _ | ⟨l, ls⟩ <;> simp

theorem blankOrComment_cons_space (l : List Char) :
    blankOrComment (' ' :: l) = blankOrComment l := by
  rw [blankOrComment.eq_def, blankOrComment.eq_def,
    List.dropWhile_cons_of_pos (by decide)]

theorem commentOnlyDoc_cons_space (r : List Char) :
    commentOnlyDoc (' ' :: r) = commentOnlyDoc r := by
  rw [commentOnlyDoc, commentOnlyDoc, splitLines_cons]
  rw [if_neg (by decide)]
  rcases h : splitLines r with _ | ⟨l, ls⟩
  · exact absurd h (splitLines_ne_nil r)
  · simp [blankOrComment_cons_space]

theorem commentOnlyDoc_dropSpaces (cs : List Char) :
    commentOnlyDoc (cs.dropWhile (fun c => c = ' ')) = commentOnlyDoc cs := by
  induction cs with
  | nil => rfl
  | cons c r ih =>
    by_cases h : c = ' '
    · subst h
      rw [List.dropWhile_cons_of_pos (by decide), ih, commentOnlyDoc_cons_space]
    · rw [List.dropWhile_cons_of_neg (by simpa using h)]

theorem commentOnlyDoc_newline (r : List Char) :
    commentOnlyDoc ('\n' :: r) = commentOnlyDoc r := by
  rw [commentOnlyDoc, commentOnlyDoc, splitLines_cons]
  rw [if_pos rfl]
  simp [blankOrComment]

theorem dropWhile_head_not (p : Char → Bool) (cs : List Char) (c : Char)
    (r : List Char) (h : cs.dropWhile p = c :: r) : p c = false := by
  induction cs with
  | nil => simp at h
  | cons a cs ih =>
    by_cases ha : p a
    · rw [List.dropWhile_cons_of_pos ha] at h
      exact ih h
    · rw [List.dropWhile_cons_of_neg ha] at h
      cases h
      exact Bool.eq_false_iff.mpr ha

/-- A non-space character opening a line of an all-blank-or-comment
document is either a `#` or a newline. -/
theorem commentOnly_head (c : Char) (r : List Char)
    (hco : commentOnlyDoc (c :: r) = true) (hcs : ¬ c = ' ') :
    c = '#' ∨ c = '\n' := by
  by_cases hn : c = '\n'
  · exact Or.inr hn
  · left
    rw [commentOnlyDoc, splitLines_cons, if_neg hn] at hco
    rcases h : splitLines r with _ | ⟨l, ls⟩
    · exact absurd h (splitLines_ne_nil r)
    · rw [h] at hco
      simp only [List.all_cons, Bool.and_eq_true] at hco
      have hb := hco.1
      rw [blankOrComment.eq_def, List.dropWhile_cons_of_neg (by simpa using hcs)] at hb
      simpa using hb

theorem commentOnly_tail_all (cs : List Char) (hco : commentOnlyDoc cs = true) :
    ((splitLines cs).tail).all blankOrComment = true := by
  rcases h : splitLines cs with _ | ⟨l, ls⟩
  · exact absurd h (splitLines_ne_nil cs)
  · rw [commentOnlyDoc, h] at hco
    simp only [List.all_cons, Bool.and_eq_true] at hco
    simpa using hco.2

/-- A scan iteration on input that is all spaces: the loop runs off the
end of the text. -/
theorem parseStep_drop_nil (line : Nat) (cs : List Char)
    (h : cs.dropWhile (fun c => c = ' ') = []) :
    parseStep line cs = .ok (none, line, []) := by
  rw [parseStep.eq_def, h]

/-- A scan iteration on a blank line: the newline is consumed and the
line counter advances (`src/parser.js` lines 171-175). -/
theorem parseStep_drop_newline (line : Nat) (cs r : List Char)
    (h : cs.dropWhile (fun c => c = ' ') = '\n' :: r) :
    parseStep line cs = .ok (none, line + 1, r) := by
  rw [parseStep.eq_def, h]
  simp

/-- A scan iteration on a comment-opening line: the `#` branch of the
token loop discards the rest of the physical line and, the token being
empty, no command is produced and no error is raised. -/
theorem parseStep_drop_comment (line : Nat) (cs r : List Char)
    (h : cs.dropWhile (fun c => c = ' ') = '#' :: r) :
    parseStep line cs =
      .ok (none, line, ('#' :: r).dropWhile (fun x => ¬ x = '\n')) := by
  rw [parseStep.eq_def, h]
  simp [readToken, finishIter, jsTrim]

/-- Discarding the rest of the current physical line preserves the
all-blank-or-comment property of the remaining lines. -/
theorem commentOnlyDoc_dropLine (cs : List Char)
    (h : ((splitLines cs).tail).all blankOrComment = true) :
    commentOnlyDoc (cs.dropWhile (fun x => ¬ x = '\n')) = true := by
  induction cs with
  | nil => decide
  | cons c r ih =>
    by_cases hn : c = '\n'
    · subst hn
      rw [List.dropWhile_cons_of_neg (by simp)]
      rw [splitLines_cons, if_pos rfl] at h
      rw [commentOnlyDoc_newline, commentOnlyDoc, List.all_eq_true]
      simpa using h
    · rw [List.dropWhile_cons_of_pos (by simpa using hn)]
      apply ih
      rw [splitLines_cons, if_neg hn] at h
      rcases hr : splitLines r with _ | ⟨l, ls⟩
      · exact absurd hr (splitLines_ne_nil r)
      · rw [hr] at h
        simpa using h

/-- One scan iteration over a non-empty all-blank-or-comment document:
no command is produced, at least one character is consumed, and the
remainder is again all blank or comment lines. -/
theorem parseStep_commentOnly (line : Nat) (cs : List Char)
    (hne : cs ≠ []) (hco : commentOnlyDoc cs = true) :
    ∃ line2 rest, parseStep line cs = .ok (none, line2, rest) ∧
      rest.length < cs.length ∧ commentOnlyDoc rest = true := by
  rcases hdrop : cs.dropWhile (fun c => c = ' ') with _ | ⟨c, r⟩
  · exact ⟨line, [], parseStep_drop_nil line cs hdrop,
      List.length_pos.mpr hne, by decide⟩
  · have hcs1 : commentOnlyDoc (c :: r) = true := by
      rw [← hdrop, commentOnlyDoc_dropSpaces]
      exact hco
    have hcne : ¬ c = ' ' := by
      simpa using dropWhile_head_not _ cs c r hdrop
    have hlen1 : (c :: r).length ≤ cs.length := by
      rw [← hdrop]
      exact dropWhile_length_le _ cs
    rcases commentOnly_head c r hcs1 hcne with hc | hc
    · subst hc
      refine ⟨line, ('#' :: r).dropWhile (fun x => ¬ x = '\n'),
        parseStep_drop_comment line cs r hdrop, ?_, ?_⟩
      · have h2 : (('#' :: r).dropWhile (fun x => ¬ x = '\n')).length ≤ r.length := by
          rw [List.dropWhile_cons_of_pos (by decide)]
          exact dropWhile_length_le _ r
        simp only [List.length_cons] at hlen1
        omega
      · exact commentOnlyDoc_dropLine ('#' :: r) (commentOnly_tail_all _ hcs1)
    · subst hc
      refine ⟨line + 1, r, parseStep_drop_newline line cs r hdrop, ?_, ?_⟩
      · simp only [List.length_cons] at hlen1
        omega
      · rw [← commentOnlyDoc_newline]
        exact hcs1

/-- The scan of an all-blank-or-comment document, with enough fuel,
returns its accumulator unchanged. -/
theorem scanAux_commentOnly (fuel : Nat) :
    ∀ (cs : List Char) (line : Nat) (acc : List Command),
      cs.length < fuel → commentOnlyDoc cs = true →
      scanAux fuel line acc cs = .ok acc := by
  induction fuel with
  | zero => intro cs line acc h _; exact absurd h (Nat.not_lt_zero _)
  | succ fuel ih =>
    intro cs line acc hlen hco
    rw [scanAux]
    by_cases hne : cs = []
    · rw [if_pos (List.isEmpty_iff.mpr hne)]
    · rw [if_neg (by simpa using hne)]
      obtain ⟨line2, rest, hstep, hlt, hco2⟩ := parseStep_commentOnly line cs hne hco
      rw [hstep]
      exact ih rest line2 acc (by omega) hco2

/-- C7: an input consisting solely of blank and comment-only lines
(including the empty string) parses to the empty command sequence, and
the document-level validation accepts the empty sequence, so an empty
result never raises an error. -/
theorem c7_comment_only :
    (∀ s : String, commentOnlyDoc s.toList = true → parse s = .ok []) ∧
    validate [] = .ok [] := by
  refine ⟨?_, rfl⟩
  intro s h
  rw [parse, scan,
    scanAux_commentOnly (s.toList.length + 1) s.toList 1 [] (by omega) h]
  rfl

/-- Witness for C7: a document of one comment line and one blank line. -/
theorem c7_comment_only_witness : parse " # note\n\n" = .ok [] :=
  c7_comment_only.1 " # note\n\n" (by decide)

/-! ## The closed-enumeration claims (C8) -/

/-- C8: on an unclosed enumeration type, `ord` and `name` fail with the
"unclosed enumeration" error rather than returning a value, and `fromName`
(the source's name for the spec's `fromSymbolicName`) inherits that
failure whenever at least one variant is bound; once a type is closed,
constructing a further variant fails with the "cannot be modified"
error. -/
theorem c8_enum_guards :
    (∀ (st : EnumTypeState) (v : EnumVariant), st.closed = false →
        Enum.ord st v = .error .unclosedEnum) ∧
    (∀ (st : EnumTypeState) (v : EnumVariant), st.closed = false →
        Enum.name st v = .error .unclosedEnum) ∧
    (∀ (st : EnumTypeState) (nm : String), st.closed = false → st.bound ≠ [] →
        Enum.fromName st nm = .error .unclosedEnum) ∧
    (∀ st : EnumTypeState, st.closed = true →
        Enum.registerVariant st = .error .cannotModify) := by
  refine ⟨?_, ?_, ?_, ?_⟩
  · intro st v h
    rw [Enum.ord, if_neg (by simp [h])]
  · intro st v h
    rw [Enum.name, if_neg (by simp [h])]
  · intro st nm h hb
    rcases hbb : st.bound with _ | ⟨p, rest⟩
    · exact absurd hbb hb
    · rw [Enum.fromName, Enum.valuesOf, hbb]
      simp [Enum.fromNameAux, Enum.name, h]
      rfl
  · intro st h
    rw [Enum.registerVariant, if_pos h]

/-- Witness for C8: a one-variant type that has not been closed, and a
closed type refusing registration. -/
theorem c8_enum_guards_witness :
    Enum.ord ⟨1, false, [("ORIGIN", 0)]⟩ ⟨0⟩ = .error .unclosedEnum ∧
    Enum.name ⟨1, false, [("ORIGIN", 0)]⟩ ⟨0⟩ = .error .unclosedEnum ∧
    Enum.fromName ⟨1, false, [("ORIGIN", 0)]⟩ "ORIGIN" = .error .unclosedEnum ∧
    Enum.registerVariant ⟨5, true, [("ORIGIN", 0)]⟩ = .error .cannotModify :=
  ⟨c8_enum_guards.1 _ _ rfl, c8_enum_guards.2.1 _ _ rfl,
   c8_enum_guards.2.2.1 _ _ rfl (by decide), c8_enum_guards.2.2.2 _ rfl⟩

/-! ## Progress of the scan

Every iteration of the outer loop on a non-empty remainder consumes at
least one character, so the fuel `text.length + 1` supplied by `scan` is
never exhausted and the fuel parameter is irrelevant above that bound. -/

theorem finishIter_none (line : Nat) (cmd args rest : List Char)
    (hcmd : cmd = []) :
    finishIter line cmd args rest = .ok (none, line, rest) := by
  rw [finishIter]
  simp [hcmd]

theorem finishIter_ok (line : Nat) (cmd args rest : List Char)
    (ty : CommandType) (hcmd : ¬ cmd = []) (hargs : ¬ jsTrim args = [])
    (hft : CommandType.fromToken (String.mk cmd) = some ty) :
    finishIter line cmd args rest =
      .ok (some (Command.make ty (jsTrim args)), line, rest) := by
  rw [finishIter]
  simp [hcmd, hargs, hft]

/-- The tail of an iteration never rewinds: an `ok` result carries the
rest of the input it was given. -/
theorem finishIter_rest (line line2 : Nat) (cmd args rest : List Char)
    (o : Option Command) (rest2 : List Char)
    (h : finishIter line cmd args rest = .ok (o, line2, rest2)) :
    rest2 = rest := by
  by_cases hcmd : cmd = []
  · rw [finishIter_none line cmd args rest hcmd] at h
    simp only [Except.ok.injEq, Prod.mk.injEq] at h
    exact h.2.2.symm
  · by_cases hargs : jsTrim args = []
    · rw [finishIter_empty_args line cmd args rest hcmd hargs] at h
      exact Except.noConfusion h
    · rcases hft : CommandType.fromToken (String.mk cmd) with _ | ty
      · rw [finishIter_unknown line cmd args rest hcmd hargs hft] at h
        exact Except.noConfusion h
      · rw [finishIter_ok line cmd args rest ty hcmd hargs hft] at h
        simp only [Except.ok.injEq, Prod.mk.injEq] at h
        exact h.2.2.symm

theorem readToken_length (line : Nat) (cs : List Char) :
    ∀ (cmd cmd2 rest : List Char) (skip : Bool),
      readToken line cmd cs = .ok (cmd2, skip, rest) → rest.length ≤ cs.length := by
  induction cs with
  | nil =>
    intro cmd cmd2 rest skip h
    simp only [readToken, Except.ok.injEq, Prod.mk.injEq] at h
    simp [← h.2.2]
  | cons c cs ih =>
    intro cmd cmd2 rest skip h
    rw [readToken] at h
    by_cases h1 : c = ' '
    · rw [if_pos h1] at h
      simp only [Except.ok.injEq, Prod.mk.injEq] at h
      rw [← h.2.2]
    · rw [if_neg h1] at h
      by_cases h2 : c = '#'
      · rw [if_pos h2] at h
        simp only [Except.ok.injEq, Prod.mk.injEq] at h
        rw [← h.2.2]
        exact dropWhile_length_le _ _
      · rw [if_neg h2] at h
        by_cases h3 : c = '\n'
        · rw [if_pos h3] at h
          exact Except.noConfusion h
        · rw [if_neg h3] at h
          exact Nat.le_succ_of_le (ih _ _ _ _ h)

theorem readArgs_length_aux (n : Nat) :
    ∀ (cs : List Char), cs.length ≤ n →
    ∀ (line line2 : Nat) (args args2 rest : List Char),
      readArgs line args cs = .ok (args2, line2, rest) →
      rest.length ≤ cs.length := by
  induction n with
  | zero =>
    intro cs hcs line line2 args args2 rest h
    rcases cs with _ | ⟨c, cs⟩
    · simp only [readArgs, Except.ok.injEq, Prod.mk.injEq] at h
      simp [← h.2.2]
    · simp at hcs
  | succ n ih =>
    intro cs hcs line line2 args args2 rest h
    rcases cs with _ | ⟨c, cs⟩
    · simp only [readArgs, Except.ok.injEq, Prod.mk.injEq] at h
      simp [← h.2.2]
    · rw [readArgs.eq_def] at h
      simp only [] at h
      by_cases h1 : c = '\n'
      · rw [if_pos h1] at h
        simp only [Except.ok.injEq, Prod.mk.injEq] at h
        rw [← h.2.2]
      · rw [if_neg h1] at h
        by_cases h2 : c = '\\'
        · rw [if_pos h2] at h
          rcases cs with _ | ⟨d, cs2⟩
          · exact Except.noConfusion h
          · have hrec := ih cs2 (by simp at hcs ⊢; omega) _ _ _ _ _ h
            simp only [List.length_cons]
            omega
        · rw [if_neg h2] at h
          by_cases h3 : c = '#'
          · rw [if_pos h3] at h
            simp only [Except.ok.injEq, Prod.mk.injEq] at h
            rw [← h.2.2]
            exact dropWhile_length_le _ _
          · rw [if_neg h3] at h
            have hrec := ih cs (by simp at hcs; omega) _ _ _ _ _ h
            exact Nat.le_succ_of_le hrec

theorem readArgs_length (line line2 : Nat) (cs args args2 rest : List Char)
    (h : readArgs line args cs = .ok (args2, line2, rest)) :
    rest.length ≤ cs.length :=
  readArgs_length_aux cs.length cs (Nat.le_refl _) line line2 args args2 rest h

theorem afterToken_length (line line2 : Nat) (cmd cs2 : List Char)
    (o : Option Command) (rest2 : List Char)
    (h : afterToken line cmd cs2 = .ok (o, line2, rest2)) :
    rest2.length ≤ cs2.length := by
  rcases hdrop : cs2.dropWhile (fun x => x = ' ') with _ | ⟨x, r3⟩
  · rw [afterToken, hdrop] at h
    exact Except.noConfusion h
  · have h6 : (x :: r3).length ≤ cs2.length := by
      rw [← hdrop]
      exact dropWhile_length_le _ _
    have hxs : ¬ x = ' ' := by
      simpa using dropWhile_head_not (fun x => x = ' ') cs2 x r3 hdrop
    have hsplit : afterToken line cmd cs2 = afterToken line cmd (x :: r3) := by
      conv =>
        lhs
        rw [← List.takeWhile_append_dropWhile (p := fun x => x = ' ') (l := cs2)]
      rw [hdrop, afterToken_dropSpaces line cmd _ _
        (fun c hc => by simpa using List.mem_takeWhile_imp hc)]
    rw [hsplit] at h
    by_cases hx : x = '\n'
    · subst hx
      rw [afterToken_newline] at h
      exact Except.noConfusion h
    · rw [afterToken_go line cmd (x :: r3) (by simp)
        (fun c hc => by simp at hc; exact ⟨hc ▸ hxs, hc ▸ hx⟩)] at h
      rcases hra : readArgs line [] (x :: r3) with e | ⟨⟨args, l2, cs4⟩⟩
      · rw [hra] at h
        exact Except.noConfusion h
      · rw [hra] at h
        have h4 := finishIter_rest l2 line2 cmd args cs4 o rest2 h
        subst h4
        have h5 := readArgs_length line l2 (x :: r3) [] args rest2 hra
        omega

/-- Progress: an iteration of the scan on a non-empty remainder strictly
shrinks it. -/
theorem parseStep_length (line : Nat) (cs : List Char) (hne : cs ≠ [])
    (o : Option Command) (line2 : Nat) (rest : List Char)
    (h : parseStep line cs = .ok (o, line2, rest)) : rest.length < cs.length := by
  rcases hdrop : cs.dropWhile (fun c => c = ' ') with _ | ⟨c, r⟩
  · rw [parseStep_drop_nil line cs hdrop] at h
    simp only [Except.ok.injEq, Prod.mk.injEq] at h
    rw [← h.2.2]
    exact List.length_pos.mpr hne
  · have hlen1 : (c :: r).length ≤ cs.length := by
      rw [← hdrop]
      exact dropWhile_length_le _ _
    by_cases hn : c = '\n'
    · subst hn
      rw [parseStep_drop_newline line cs r hdrop] at h
      simp only [Except.ok.injEq, Prod.mk.injEq] at h
      rw [← h.2.2]
      simp only [List.length_cons] at hlen1
      omega
    · rw [parseStep.eq_def, hdrop] at h
      simp only [if_neg hn] at h
      rcases hrt : readToken line [] (c :: r) with e | ⟨⟨cmd, skip, cs2⟩⟩
      · rw [hrt] at h
        exact Except.noConfusion h
      · rw [hrt] at h
        have hcs2 : cs2.length < (c :: r).length := by
          rw [readToken] at hrt
          by_cases h2 : c = '#'
          · rw [if_neg (by
                intro hsp
                exact hn (by rw [hsp] at h2; exact absurd h2 (by decide))), if_pos h2] at hrt
            simp only [Except.ok.injEq, Prod.mk.injEq] at hrt
            rw [← hrt.2.2, List.dropWhile_cons_of_pos (by simp [h2])]
            have := dropWhile_length_le (fun x => ¬ x = '\n') r
            simp only [List.length_cons]
            omega
          · by_cases h1 : c = ' '
            · rw [if_pos h1] at hrt
              simp only [Except.ok.injEq, Prod.mk.injEq] at hrt
              rcases hrt with ⟨hcmd2, hskip, hrest⟩
              exfalso
              have := dropWhile_head_not (fun c => c = ' ') cs c r hdrop
              simp [h1] at this
            · rw [if_neg h1, if_neg h2, if_neg hn] at hrt
              have := readToken_length line r _ _ _ _ hrt
              simp only [List.length_cons]
              omega
        rcases skip with _ | _
        · have := afterToken_length line line2 cmd cs2 o rest h
          omega
        · have := finishIter_rest line line2 cmd [] cs2 o rest h
          subst this
          omega

/-- Fuel irrelevance: any two fuels beyond the remaining length agree, so
`scan`'s choice of `length + 1` is safe. -/
theorem scanAux_fuel (fuel1 : Nat) :
    ∀ (fuel2 : Nat) (cs : List Char) (line : Nat) (acc : List Command),
      cs.length < fuel1 → cs.length < fuel2 →
      scanAux fuel1 line acc cs = scanAux fuel2 line acc cs := by
  induction fuel1 with
  | zero => intro fuel2 cs line acc h _; exact absurd h (Nat.not_lt_zero _)
  | succ fuel1 ih =>
    intro fuel2 cs line acc h1 h2
    rcases fuel2 with _ | fuel2
    · exact absurd h2 (Nat.not_lt_zero _)
    · rw [scanAux, scanAux]
      by_cases hne : cs = []
      · rw [if_pos (List.isEmpty_iff.mpr hne), if_pos (List.isEmpty_iff.mpr hne)]
      · rw [if_neg (by simpa using hne), if_neg (by simpa using hne)]
        rcases hstep : parseStep line cs with e | ⟨⟨o, line2, rest⟩⟩
        · rfl
        · have hlt := parseStep_length line cs hne o line2 rest hstep
          rcases o with _ | cmd
          · exact ih fuel2 rest line2 acc (by omega) (by omega)
          · exact ih fuel2 rest line2 (acc ++ [cmd]) (by omega) (by omega)

